import Mathlib

/-!
Verification of the resumable spacy pipeline of the SwissCourtRulingCorpus
repository (src/scrc/dataset_construction/spacy_pipeline_runner.py) and of
the extractor base pattern used by
src/scrc/preprocessors/extractors/lower_court_extractor.py.

The embedding models dataframes as lists of rows (association lists of
column name / value), the per-language output directory as an explicit
file-system state (chunk parquet files plus the chambers_processed.txt
ledger content), and the NLP model as an oracle from a text to an optional
serialized document (None modelling a raised exception).  Each run returns
the final state, a success flag (False means the Python exception
propagated at that point) and an event trace recording input reads, chunk
writes and ledger appends in order.
-/

namespace SCRC

/-- A dataframe row: an ordered association list of column name / value.
Serialized doc bytes are modelled as a value string. -/
structure Row where
  cols : List (String × String)
deriving DecidableEq

/-- Column lookup, modelling pandas column access such as chunk.text
(None models the AttributeError on a missing column). -/
def Row.getCol (r : Row) (name : String) : Option String :=
  (r.cols.find? (fun p => p.1 = name)).map (fun p => p.2)

/-- Whether the row has a column of the given name. -/
def Row.hasCol (r : Row) (name : String) : Bool :=
  r.cols.any (fun p => p.1 = name)

/-- Pandas column assignment: replace the column if present, else append it
at the end, as the statement chunk['spacy_doc_bytes'] = doc_bytes does. -/
def Row.setCol (r : Row) (name v : String) : Row :=
  if r.hasCol name then
    ⟨r.cols.map (fun p => if p.1 = name then (p.1, v) else p)⟩
  else
    ⟨r.cols ++ [(name, v)]⟩

/-- A dataframe, in row order. -/
abbrev DF := List Row

/-- Number of elements of the Python range(0, n, c) for c > 0, i.e. the
number of chunks of a dataframe of n rows at chunk size c. -/
def numChunks (n c : Nat) : Nat := (n + c - 1) / c

/-- The chunk split in run_spacy_pipeline:
chunks = [df[i:i + chunk_size] for i in range(0, df.shape[0], chunk_size)].
List.range' 0 m c is exactly range(0, n, c) with m its element count. -/
def chunkList (df : DF) (chunk_size : Nat) : List DF :=
  (List.range' 0 (numChunks df.length chunk_size) chunk_size).map
    (fun i => (df.drop i).take chunk_size)

section ChunkLemmas

theorem range'_step_eq_map (c : Nat) :
    ∀ (m a : Nat), List.range' a m c = (List.range m).map (fun k => a + k * c)
  | 0, _ => rfl
  | m + 1, a => by
    rw [List.range'_succ, range'_step_eq_map c m (a + c), List.range_succ_eq_map,
      List.map_cons, List.map_map]
    congr 1
    · omega
    · apply List.map_congr_left
      intro k _
      simp only [Function.comp_apply, Nat.succ_eq_add_one]
      ring

theorem chunkList_eq_map (df : DF) (c : Nat) :
    chunkList df c =
      (List.range (numChunks df.length c)).map
        (fun k => (df.drop (k * c)).take c) := by
  rw [chunkList, range'_step_eq_map]
  simp

theorem chunkList_length (df : DF) (c : Nat) :
    (chunkList df c).length = numChunks df.length c := by
  rw [chunkList_eq_map]
  simp

theorem numChunks_mul_ge (n c : Nat) (hc : 0 < c) : n ≤ numChunks n c * c := by
  have hd := Nat.div_add_mod (n + c - 1) c
  have hm : (n + c - 1) % c < c := Nat.mod_lt _ hc
  unfold numChunks
  rw [Nat.mul_comm]
  omega

theorem chunkList_flatten_take (df : DF) (c : Nat) :
    ∀ m, ((List.range m).map (fun k => (df.drop (k * c)).take c)).flatten =
      df.take (m * c)
  | 0 => by simp
  | m + 1 => by
    rw [List.range_succ, List.map_append, List.flatten_append,
      chunkList_flatten_take df c m]
    simp [Nat.succ_mul, List.take_add]

theorem chunkList_flatten (df : DF) (c : Nat) (hc : 0 < c) :
    (chunkList df c).flatten = df := by
  rw [chunkList_eq_map, chunkList_flatten_take]
  exact List.take_of_length_le (numChunks_mul_ge df.length c hc)

end ChunkLemmas

/-- The deterministic output path of a chunk, as built by get_chunk_path:
chamber_dir / (toString chunk_num ++ "." ++ ext) under the per-language
base directory (fixed during a run, hence not a field). -/
structure ChunkPath where
  chamber : String
  chunkNum : Nat
  ext : String
deriving DecidableEq

/-- get_chunk_path(base_dir, chamber, chunk_num, extension="parquet"). -/
def get_chunk_path (chamber : String) (chunk_num : Nat) : ChunkPath :=
  ⟨chamber, chunk_num, "parquet"⟩

/-- The per-language output directory: the chunk parquet files present and
the text content of the chambers_processed.txt ledger. -/
structure FS where
  files : List (ChunkPath × DF)
  ledger : String
deriving DecidableEq

/-- Path.exists on a chunk path. -/
def FS.chunkFileExists (fs : FS) (p : ChunkPath) : Bool :=
  fs.files.any (fun e => e.1 = p)

/-- chunk.to_parquet(path): (over)write one chunk file. -/
def FS.writeFile (fs : FS) (p : ChunkPath) (d : DF) : FS :=
  ⟨(p, d) :: fs.files, fs.ledger⟩

/-- The content of the chunk file at p, if present (latest write wins). -/
def FS.readFile (fs : FS) (p : ChunkPath) : Option DF :=
  (fs.files.find? (fun e => e.1 = p)).map (fun e => e.2)

/-- Observable events of a run, in order of occurrence. -/
inductive Event where
  | readInput (chamber : String)
  | writeChunk (path : ChunkPath)
  | appendLedger (chamber : String)
deriving DecidableEq

/-- Result of a run: final directory state, success flag (false when a
Python exception propagated at that point) and the event trace. -/
structure RunResult where
  fs : FS
  ok : Bool
  trace : List Event
deriving DecidableEq

/-- Processing of one row inside a chunk: look up the text column, run the
NLP model on it (doc.to_bytes() serialization included in the oracle, None
modelling an exception), and attach the result as the spacy_doc_bytes
column. -/
def processRow (nlp : String → Option String) (r : Row) : Option Row :=
  ((r.getCol "text").bind nlp).map (fun b => r.setCol "spacy_doc_bytes" b)

/-- The body of the chunk loop before to_parquet: texts = chunk.text.tolist();
doc_bytes = [doc.to_bytes() for doc in docs]; chunk['spacy_doc_bytes'] =
doc_bytes.  All docs of a chunk are forced before the file write, so a
failing row aborts the whole chunk with nothing written for it. -/
def processChunk (nlp : String → Option String) : DF → Option DF
  | [] => some []
  | r :: rest =>
    match processRow nlp r, processChunk nlp rest with
    | some r2, some rest2 => some (r2 :: rest2)
    | _, _ => none

/-- for chunk_num, chunk in enumerate(chunks): process the chunk and save it
to get_chunk_path(base_dir, chamber, chunk_num); on a raised exception stop,
keeping the files already written. -/
def writeChunks (nlp : String → Option String) (chamber : String) :
    Nat → List DF → FS → RunResult
  | _, [], fs => ⟨fs, true, []⟩
  | k, chunk :: rest, fs =>
    match processChunk nlp chunk with
    | none => ⟨fs, false, []⟩
    | some out =>
      let p := get_chunk_path chamber k
      let r := writeChunks nlp chamber (k + 1) rest (fs.writeFile p out)
      ⟨r.fs, r.ok, Event.writeChunk p :: r.trace⟩

/-- run_spacy_pipeline(df, chamber, base_dir, chunk_size=1000,
override=False): if override or the first chunk's file does not exist,
split df into chunks and process and save each in index order; otherwise
do nothing (the partition counts as already processed). -/
def run_spacy_pipeline (nlp : String → Option String) (df : DF)
    (chamber : String) (fs : FS) (chunk_size : Nat) (override : Bool) :
    RunResult :=
  if override || !(fs.chunkFileExists (get_chunk_path chamber 0)) then
    writeChunks nlp chamber 0 (chunkList df chunk_size) fs
  else
    ⟨fs, true, []⟩

/-- process_chamber: for each chamber still to process, read its input
parquet, run the spacy pipeline on it, and only then append the chamber
name plus a newline to chambers_processed.txt.  An exception inside
run_spacy_pipeline propagates, skipping the ledger append and the remaining
chambers. -/
def process_chamber (nlp : String → Option String) (inputs : String → DF)
    (chunk_size : Nat) : List String → FS → RunResult
  | [], st => ⟨st, true, []⟩
  | chamber :: rest, st =>
    let df := inputs chamber
    let r := run_spacy_pipeline nlp df chamber st chunk_size false
    if r.ok then
      let st2 : FS := ⟨r.fs.files, r.fs.ledger ++ chamber ++ "\n"⟩
      let r2 := process_chamber nlp inputs chunk_size rest st2
      ⟨r2.fs, r2.ok,
        Event.readInput chamber :: r.trace
          ++ Event.appendLedger chamber :: r2.trace⟩
    else
      ⟨r.fs, false, Event.readInput chamber :: r.trace⟩

/-- Python str.split("\n") on the character list of a string: the list of
maximal (possibly empty) segments between newline characters.  Splitting ""
yields [""], and a trailing newline yields a trailing "" segment. -/
def splitNlAux : List Char → List (List Char)
  | [] => [[]]
  | c :: rest =>
    let r := splitNlAux rest
    if c = '\n' then [] :: r
    else (c :: r.headI) :: r.tail

/-- chambers_processed_path.read_text().split("\n"). -/
def splitNl (s : String) : List String :=
  (splitNlAux s.data).map (fun l => String.mk l)

/-- set(chamber_list) - set(chambers_processed) in run_pipeline, as the
sublist of chamber_list whose names are not ledger lines (the run iterates
it in an arbitrary order, which theorems quantify over). -/
def chambers_not_yet_processed (chamber_list : List String) (ledger : String) :
    List String :=
  chamber_list.filter (fun c => !((splitNl ledger).contains c))

/-- The ledger text produced by appending each entry followed by a newline,
starting from an empty file. -/
def ledgerOf : List String → String
  | [] => ""
  | e :: es => e ++ "\n" ++ ledgerOf es

section LedgerLemmas

theorem splitNlAux_ne_nil : ∀ l : List Char, splitNlAux l ≠ []
  | [] => by simp [splitNlAux]
  | c :: rest => by
    simp only [splitNlAux]
    split <;> simp

theorem splitNlAux_append_newline (xs ys : List Char) (h : '\n' ∉ xs) :
    splitNlAux (xs ++ '\n' :: ys) = xs :: splitNlAux ys := by
  induction xs with
  | nil => simp [splitNlAux]
  | cons c cs ih =>
    have hc : c ≠ '\n' := fun hh => h (hh ▸ List.mem_cons_self c cs)
    have hcs : '\n' ∉ cs := fun hh => h (List.mem_cons_of_mem c hh)
    simp only [List.cons_append, splitNlAux, if_neg hc, List.append_eq]
    rw [ih hcs]
    simp

theorem data_ledgerOf_cons (e : String) (es : List String) :
    (ledgerOf (e :: es)).data = e.data ++ '\n' :: (ledgerOf es).data := by
  show (e ++ "\n" ++ ledgerOf es).data = _
  simp [String.data_append]

theorem splitNl_ledgerOf (es : List String)
    (h : ∀ e ∈ es, '\n' ∉ e.data) : splitNl (ledgerOf es) = es ++ [""] := by
  induction es with
  | nil => rfl
  | cons e es ih =>
    have he : '\n' ∉ e.data := h e (List.mem_cons_self e es)
    have hes : ∀ x ∈ es, '\n' ∉ x.data := fun x hx => h x (List.mem_cons_of_mem e hx)
    simp only [splitNl, data_ledgerOf_cons, splitNlAux_append_newline _ _ he,
      List.map_cons]
    rw [show String.mk e.data = e from rfl]
    rw [show (splitNlAux (ledgerOf es).data).map (fun l => String.mk l)
        = splitNl (ledgerOf es) from rfl, ih hes]
    simp

theorem mem_splitNl_ledgerOf (c : String) (es : List String)
    (h : ∀ e ∈ es, '\n' ∉ e.data) (hc : c ≠ "") :
    c ∈ splitNl (ledgerOf es) ↔ c ∈ es := by
  rw [splitNl_ledgerOf es h]
  simp [hc]

theorem count_splitNl_ledgerOf (c : String) (es : List String)
    (h : ∀ e ∈ es, '\n' ∉ e.data) (hc : c ≠ "") :
    (splitNl (ledgerOf es)).count c = es.count c := by
  rw [splitNl_ledgerOf es h, List.count_append]
  simp [List.count_singleton', hc]

theorem strAppend_assoc (a b c : String) : a ++ b ++ c = a ++ (b ++ c) := by
  apply String.ext
  simp [String.data_append]

theorem ledgerOf_append (l1 l2 : List String) :
    ledgerOf (l1 ++ l2) = ledgerOf l1 ++ ledgerOf l2 := by
  induction l1 with
  | nil =>
    apply String.ext
    simp [ledgerOf, String.data_append]
  | cons e es ih =>
    apply String.ext
    simp [ledgerOf, String.data_append, ih]

end LedgerLemmas

section RunLemmas

variable (nlp : String → Option String)

@[simp]
theorem FS.writeFile_ledger (fs : FS) (p : ChunkPath) (d : DF) :
    (fs.writeFile p d).ledger = fs.ledger := rfl

@[simp]
theorem FS.writeFile_files (fs : FS) (p : ChunkPath) (d : DF) :
    (fs.writeFile p d).files = (p, d) :: fs.files := rfl

theorem FS.chunkFileExists_of_mem (fs : FS) (p : ChunkPath) (d : DF)
    (h : (p, d) ∈ fs.files) : fs.chunkFileExists p = true := by
  simp only [FS.chunkFileExists, List.any_eq_true]
  exact ⟨(p, d), h, by simp⟩

theorem writeChunks_ledger (chamber : String) (l : List DF) :
    ∀ (k : Nat) (fs : FS),
      (writeChunks nlp chamber k l fs).fs.ledger = fs.ledger := by
  induction l with
  | nil => intro k fs; rfl
  | cons chunk rest ih =>
    intro k fs
    simp only [writeChunks]
    cases hpc : processChunk nlp chunk with
    | none => rfl
    | some out =>
      simpa using ih (k + 1) (fs.writeFile (get_chunk_path chamber k) out)

theorem writeChunks_files_mono (chamber : String) (l : List DF) :
    ∀ (k : Nat) (fs : FS) (e : ChunkPath × DF), e ∈ fs.files →
      e ∈ (writeChunks nlp chamber k l fs).fs.files := by
  induction l with
  | nil => intro k fs e he; exact he
  | cons chunk rest ih =>
    intro k fs e he
    simp only [writeChunks]
    cases hpc : processChunk nlp chunk with
    | none => exact he
    | some out =>
      exact ih (k + 1) (fs.writeFile (get_chunk_path chamber k) out) e
        (List.mem_cons_of_mem _ he)

theorem writeChunks_files_sub (chamber : String) (l : List DF) :
    ∀ (k : Nat) (fs : FS) (p : ChunkPath) (d : DF),
      (p, d) ∈ (writeChunks nlp chamber k l fs).fs.files →
      (p, d) ∈ fs.files ∨
        ∃ j, ∃ hj : j < l.length,
          p = get_chunk_path chamber (k + j) ∧
          processChunk nlp (l.get ⟨j, hj⟩) = some d := by
  induction l with
  | nil => intro k fs p d h; exact Or.inl h
  | cons chunk rest ih =>
    intro k fs p d h
    simp only [writeChunks] at h
    cases hpc : processChunk nlp chunk with
    | none => rw [hpc] at h; exact Or.inl h
    | some out =>
      rw [hpc] at h
      simp only at h
      rcases ih (k + 1) (fs.writeFile (get_chunk_path chamber k) out) p d h with
        hin | ⟨j, hj, hp, hd⟩
      · rcases (show p = get_chunk_path chamber k ∧ d = out ∨ (p, d) ∈ fs.files by
            simpa using hin) with ⟨hp, hd⟩ | htl
        · refine Or.inr ⟨0, by simp, by simpa using hp, ?_⟩
          rw [show (chunk :: rest).get ⟨0, by simp⟩ = chunk from rfl, hpc, hd]
        · exact Or.inl htl
      · refine Or.inr ⟨j + 1, by simpa using hj, ?_, ?_⟩
        · rw [hp]; congr 1; omega
        · simpa using hd

theorem map_range_succ_shift {α : Type} (f : Nat → α) (j : Nat) :
    (List.range (j + 1)).map f = f 0 :: (List.range j).map (fun i => f (i + 1)) := by
  rw [List.range_succ_eq_map]
  simp [List.map_map, Function.comp_def]

theorem writeChunks_trace_shape (chamber : String) (l : List DF) :
    ∀ (k : Nat) (fs : FS),
      ∃ j, j ≤ l.length ∧
        (writeChunks nlp chamber k l fs).trace =
          (List.range j).map (fun i => Event.writeChunk (get_chunk_path chamber (k + i))) ∧
        ((writeChunks nlp chamber k l fs).ok = true → j = l.length) := by
  induction l with
  | nil => intro k fs; exact ⟨0, by simp, rfl, by simp⟩
  | cons chunk rest ih =>
    intro k fs
    simp only [writeChunks]
    cases hpc : processChunk nlp chunk with
    | none => exact ⟨0, by simp, rfl, by simp⟩
    | some out =>
      rcases ih (k + 1) (fs.writeFile (get_chunk_path chamber k) out) with
        ⟨j, hle, htr, hok⟩
      refine ⟨j + 1, by simpa using hle, ?_, ?_⟩
      · show Event.writeChunk (get_chunk_path chamber k) ::
            (writeChunks nlp chamber (k + 1) rest
              (fs.writeFile (get_chunk_path chamber k) out)).trace =
          (List.range (j + 1)).map
            (fun i => Event.writeChunk (get_chunk_path chamber (k + i)))
        rw [map_range_succ_shift, htr]
        congr 1
        apply List.map_congr_left
        intro a _
        have hki : k + 1 + a = k + (a + 1) := by omega
        rw [hki]
      · intro hh
        have hrok : (writeChunks nlp chamber (k + 1) rest
            (fs.writeFile (get_chunk_path chamber k) out)).ok = true := by
          simpa using hh
        have hj2 := hok hrok
        simp only [List.length_cons]
        omega


theorem writeChunks_ok_all_written (chamber : String) (l : List DF) :
    ∀ (k : Nat) (fs : FS), (writeChunks nlp chamber k l fs).ok = true →
      ∀ j, ∀ hj : j < l.length, ∃ d,
        processChunk nlp (l.get ⟨j, hj⟩) = some d ∧
        (get_chunk_path chamber (k + j), d) ∈
          (writeChunks nlp chamber k l fs).fs.files := by
  induction l with
  | nil => intro k fs _ j hj; simp at hj
  | cons chunk rest ih =>
    intro k fs hok j hj
    simp only [writeChunks] at hok ⊢
    cases hpc : processChunk nlp chunk with
    | none => rw [hpc] at hok; simp at hok
    | some out =>
      rw [hpc] at hok
      dsimp only at hok ⊢
      cases j with
      | zero =>
        refine ⟨out, by simpa using hpc, ?_⟩
        have hmem : (get_chunk_path chamber k, out) ∈
            (fs.writeFile (get_chunk_path chamber k) out).files := by simp
        have hmono := writeChunks_files_mono nlp chamber rest (k + 1)
          (fs.writeFile (get_chunk_path chamber k) out) _ hmem
        simpa using hmono
      | succ j' =>
        have hj' : j' < rest.length := by simpa using hj
        rcases ih (k + 1) (fs.writeFile (get_chunk_path chamber k) out) hok j' hj'
          with ⟨d, hd, hmem⟩
        refine ⟨d, by simpa using hd, ?_⟩
        have hadd : k + 1 + j' = k + (j' + 1) := by omega
        rw [← hadd]
        simpa using hmem

theorem run_spacy_pipeline_ledger (df : DF) (chamber : String) (fs : FS)
    (cs : Nat) (ov : Bool) :
    (run_spacy_pipeline nlp df chamber fs cs ov).fs.ledger = fs.ledger := by
  unfold run_spacy_pipeline
  split
  · exact writeChunks_ledger nlp chamber _ 0 fs
  · rfl

theorem run_spacy_pipeline_skip (df : DF) (chamber : String) (fs : FS)
    (cs : Nat) (h : fs.chunkFileExists (get_chunk_path chamber 0) = true) :
    run_spacy_pipeline nlp df chamber fs cs false = ⟨fs, true, []⟩ := by
  unfold run_spacy_pipeline
  simp [h]

theorem run_spacy_pipeline_files_mono (df : DF) (chamber : String) (fs : FS)
    (cs : Nat) (ov : Bool) (e : ChunkPath × DF) (he : e ∈ fs.files) :
    e ∈ (run_spacy_pipeline nlp df chamber fs cs ov).fs.files := by
  unfold run_spacy_pipeline
  split
  · exact writeChunks_files_mono nlp chamber _ 0 fs e he
  · exact he

theorem run_spacy_pipeline_files_sub (df : DF) (chamber : String) (fs : FS)
    (cs : Nat) (ov : Bool) (p : ChunkPath) (d : DF)
    (h : (p, d) ∈ (run_spacy_pipeline nlp df chamber fs cs ov).fs.files) :
    (p, d) ∈ fs.files ∨
      (p.chamber = chamber ∧ ∃ j, ∃ hj : j < (chunkList df cs).length,
        p = get_chunk_path chamber j ∧
        processChunk nlp ((chunkList df cs).get ⟨j, hj⟩) = some d) := by
  unfold run_spacy_pipeline at h
  split at h
  · rcases writeChunks_files_sub nlp chamber (chunkList df cs) 0 fs p d h with
      hin | ⟨j, hj, hp, hd⟩
    · exact Or.inl hin
    · refine Or.inr ⟨?_, j, hj, ?_, hd⟩
      · rw [hp]; rfl
      · rw [hp]; congr 1; omega
  · exact Or.inl h

/-- The chamber an event belongs to. -/
def Event.chamberOf : Event → String
  | Event.readInput c => c
  | Event.writeChunk p => p.chamber
  | Event.appendLedger c => c

theorem writeChunks_trace_chamber (chamber : String) (l : List DF)
    (k : Nat) (fs : FS) (e : Event)
    (he : e ∈ (writeChunks nlp chamber k l fs).trace) :
    e.chamberOf = chamber := by
  rcases writeChunks_trace_shape nlp chamber l k fs with ⟨j, _, htr, _⟩
  rw [htr] at he
  rcases List.mem_map.mp he with ⟨i, _, hei⟩
  rw [← hei]
  rfl

theorem run_spacy_pipeline_trace_chamber (df : DF) (chamber : String)
    (fs : FS) (cs : Nat) (ov : Bool) (e : Event)
    (he : e ∈ (run_spacy_pipeline nlp df chamber fs cs ov).trace) :
    e.chamberOf = chamber := by
  unfold run_spacy_pipeline at he
  split at he
  · exact writeChunks_trace_chamber nlp chamber _ 0 fs e he
  · simp at he

theorem process_chamber_trace_sub (inputs : String → DF) (cs : Nat)
    (chs : List String) :
    ∀ (st : FS) (e : Event),
      e ∈ (process_chamber nlp inputs cs chs st).trace →
      e.chamberOf ∈ chs := by
  induction chs with
  | nil => intro st e he; simp [process_chamber] at he
  | cons c rest ih =>
    intro st e he
    simp only [process_chamber] at he
    split at he
    · try dsimp only at he
      rcases List.mem_append.mp he with h1 | h2
      · rcases List.mem_cons.mp h1 with hei | htl
        · rw [hei]; exact List.mem_cons_self c rest
        · rw [run_spacy_pipeline_trace_chamber nlp (inputs c) c st cs false e htl]
          exact List.mem_cons_self c rest
      · rcases List.mem_cons.mp h2 with hei | htl2
        · rw [hei]; exact List.mem_cons_self c rest
        · exact List.mem_cons_of_mem c (ih _ e htl2)
    · try dsimp only at he
      rcases List.mem_cons.mp he with hei | htl
      · rw [hei]; exact List.mem_cons_self c rest
      · rw [run_spacy_pipeline_trace_chamber nlp (inputs c) c st cs false e htl]
        exact List.mem_cons_self c rest

theorem process_chamber_files_sub (inputs : String → DF) (cs : Nat)
    (chs : List String) :
    ∀ (st : FS) (p : ChunkPath) (d : DF),
      (p, d) ∈ (process_chamber nlp inputs cs chs st).fs.files →
      (p, d) ∈ st.files ∨ p.chamber ∈ chs := by
  induction chs with
  | nil => intro st p d h; exact Or.inl h
  | cons c rest ih =>
    intro st p d h
    simp only [process_chamber] at h
    cases hr : (run_spacy_pipeline nlp (inputs c) c st cs false).ok
    · rw [hr] at h
      rcases run_spacy_pipeline_files_sub nlp (inputs c) c st cs false p d
        (by simpa using h) with hin | ⟨hc, _⟩
      · exact Or.inl hin
      · exact Or.inr (hc ▸ List.mem_cons_self c rest)
    · rw [hr] at h
      have h2 : (p, d) ∈ (process_chamber nlp inputs cs rest
          ⟨(run_spacy_pipeline nlp (inputs c) c st cs false).fs.files,
            (run_spacy_pipeline nlp (inputs c) c st cs false).fs.ledger
              ++ c ++ "\n"⟩).fs.files := by
        simpa using h
      rcases ih _ p d h2 with hin | hrest
      · rcases run_spacy_pipeline_files_sub nlp (inputs c) c st cs false p d
          (by simpa using hin) with hin2 | ⟨hc, _⟩
        · exact Or.inl hin2
        · exact Or.inr (hc ▸ List.mem_cons_self c rest)
      · exact Or.inr (List.mem_cons_of_mem c hrest)

theorem strAppend_empty (s : String) : s ++ "" = s := by
  apply String.ext
  simp [String.data_append]

theorem process_chamber_files_mono (inputs : String → DF) (cs : Nat)
    (chs : List String) :
    ∀ (st : FS) (e : ChunkPath × DF), e ∈ st.files →
      e ∈ (process_chamber nlp inputs cs chs st).fs.files := by
  induction chs with
  | nil => intro st e he; exact he
  | cons c rest ih =>
    intro st e he
    simp only [process_chamber]
    cases hr : (run_spacy_pipeline nlp (inputs c) c st cs false).ok
    · simp only [Bool.false_eq_true, if_false]
      exact run_spacy_pipeline_files_mono nlp (inputs c) c st cs false e he
    · exact ih _ e (run_spacy_pipeline_files_mono nlp (inputs c) c st cs false e he)

theorem process_chamber_ledger_ok (inputs : String → DF) (cs : Nat)
    (chs : List String) :
    ∀ st : FS, (process_chamber nlp inputs cs chs st).ok = true →
      (process_chamber nlp inputs cs chs st).fs.ledger =
        st.ledger ++ ledgerOf chs := by
  induction chs with
  | nil => intro st _; exact (strAppend_empty st.ledger).symm
  | cons c rest ih =>
    intro st hok
    simp only [process_chamber] at hok ⊢
    cases hr : (run_spacy_pipeline nlp (inputs c) c st cs false).ok
    · rw [hr] at hok
      simp at hok
    · rw [hr] at hok
      have hok2 : (process_chamber nlp inputs cs rest
          ⟨(run_spacy_pipeline nlp (inputs c) c st cs false).fs.files,
            (run_spacy_pipeline nlp (inputs c) c st cs false).fs.ledger
              ++ c ++ "\n"⟩).ok = true := by
        simpa using hok
      have h3 := ih _ hok2
      show (process_chamber nlp inputs cs rest
          ⟨(run_spacy_pipeline nlp (inputs c) c st cs false).fs.files,
            (run_spacy_pipeline nlp (inputs c) c st cs false).fs.ledger
              ++ c ++ "\n"⟩).fs.ledger = st.ledger ++ ledgerOf (c :: rest)
      rw [h3]
      show (run_spacy_pipeline nlp (inputs c) c st cs false).fs.ledger
          ++ c ++ "\n" ++ ledgerOf rest = st.ledger ++ ledgerOf (c :: rest)
      rw [run_spacy_pipeline_ledger]
      apply String.ext
      simp [String.data_append, data_ledgerOf_cons]

theorem process_chamber_split (inputs : String → DF) (cs : Nat)
    (l1 l2 : List String) :
    ∀ st : FS,
      (process_chamber nlp inputs cs (l1 ++ l2) st).fs =
        (if (process_chamber nlp inputs cs l1 st).ok
          then (process_chamber nlp inputs cs l2
            (process_chamber nlp inputs cs l1 st).fs).fs
          else (process_chamber nlp inputs cs l1 st).fs) ∧
      (process_chamber nlp inputs cs (l1 ++ l2) st).ok =
        ((process_chamber nlp inputs cs l1 st).ok &&
          (process_chamber nlp inputs cs l2
            (process_chamber nlp inputs cs l1 st).fs).ok) := by
  induction l1 with
  | nil =>
    intro st
    simp [process_chamber]
  | cons c l1 ih =>
    intro st
    simp only [List.cons_append, process_chamber]
    cases hr : (run_spacy_pipeline nlp (inputs c) c st cs false).ok
    · simp
    · exact ih _

theorem chunkList_nil (cs : Nat) : chunkList [] cs = [] := by
  have h0 : numChunks 0 cs = 0 := by
    unfold numChunks
    rcases cs with _ | n
    · rfl
    · exact Nat.div_eq_of_lt (by omega)
  simp [chunkList, h0]

theorem run_spacy_pipeline_empty (chamber : String) (fs : FS) (cs : Nat) :
    run_spacy_pipeline nlp [] chamber fs cs false = ⟨fs, true, []⟩ := by
  unfold run_spacy_pipeline
  rw [chunkList_nil]
  split
  · rfl
  · rfl

theorem processChunk_length (chunk : DF) :
    ∀ out : DF, processChunk nlp chunk = some out → out.length = chunk.length := by
  induction chunk with
  | nil => intro out h; simp only [processChunk, Option.some.injEq] at h; simp [← h]
  | cons r rest ih =>
    intro out h
    simp only [processChunk] at h
    cases hr : processRow nlp r with
    | none => rw [hr] at h; simp at h
    | some r2 =>
      rw [hr] at h
      cases hrest : processChunk nlp rest with
      | none => rw [hrest] at h; simp at h
      | some rest2 =>
        rw [hrest] at h
        simp only [Option.some.injEq] at h
        rw [← h]
        simp [ih rest2 hrest]

theorem processChunk_rows (chunk : DF) :
    ∀ out : DF, processChunk nlp chunk = some out →
      ∀ j, ∀ hj : j < chunk.length, ∀ hj2 : j < out.length,
        processRow nlp (chunk.get ⟨j, hj⟩) = some (out.get ⟨j, hj2⟩) := by
  induction chunk with
  | nil => intro out h j hj; simp at hj
  | cons r rest ih =>
    intro out h j hj hj2
    simp only [processChunk] at h
    cases hr : processRow nlp r with
    | none => rw [hr] at h; simp at h
    | some r2 =>
      rw [hr] at h
      cases hrest : processChunk nlp rest with
      | none => rw [hrest] at h; simp at h
      | some rest2 =>
        rw [hrest] at h
        simp only [Option.some.injEq] at h
        subst h
        cases j with
        | zero => simpa using hr
        | succ j1 =>
          have hj1 : j1 < rest.length := by simpa using hj
          have hj12 : j1 < rest2.length := by simpa using hj2
          simpa using ih rest2 hrest j1 hj1 hj12

theorem processRow_fresh (r r2 : Row)
    (hnc : r.hasCol "spacy_doc_bytes" = false)
    (h : processRow nlp r = some r2) :
    ∃ t b, r.getCol "text" = some t ∧ nlp t = some b ∧
      r2.cols = r.cols ++ [("spacy_doc_bytes", b)] := by
  unfold processRow at h
  cases ht : r.getCol "text" with
  | none => rw [ht] at h; simp at h
  | some t =>
    rw [ht] at h
    rw [show (some t).bind nlp = nlp t from rfl] at h
    cases hb : nlp t with
    | none => rw [hb] at h; simp at h
    | some b =>
      rw [hb] at h
      have h2 : r.setCol "spacy_doc_bytes" b = r2 := by simpa using h
      refine ⟨t, b, rfl, hb, ?_⟩
      rw [← h2]
      unfold Row.setCol
      rw [hnc]
      simp

theorem FS.not_chunkFileExists_iff (fs : FS) (p : ChunkPath) :
    fs.chunkFileExists p = false ↔ ∀ d : DF, (p, d) ∉ fs.files := by
  unfold FS.chunkFileExists
  rw [List.any_eq_false]
  constructor
  · intro h d hd
    have := h (p, d) hd
    simp at this
  · intro h e he
    obtain ⟨p1, d⟩ := e
    simp only [decide_eq_true_eq]
    intro hep
    exact h d (by rw [← hep]; exact he)

theorem process_chamber_ok_all_written (inputs : String → DF) (cs : Nat)
    (chs : List String) :
    ∀ st : FS, (process_chamber nlp inputs cs chs st).ok = true →
      chs.Nodup →
      (∀ e ∈ st.files, e.1.chamber ∉ chs) →
      ∀ c ∈ chs, ∀ j, ∀ hj : j < (chunkList (inputs c) cs).length,
        ∃ d, processChunk nlp ((chunkList (inputs c) cs).get ⟨j, hj⟩) = some d ∧
          (get_chunk_path c j, d) ∈ (process_chamber nlp inputs cs chs st).fs.files := by
  induction chs with
  | nil => intro st _ _ _ c hc; simp at hc
  | cons c0 rest ih =>
    intro st hok hnd hfresh c hc j hj
    simp only [process_chamber] at hok ⊢
    cases hr : (run_spacy_pipeline nlp (inputs c0) c0 st cs false).ok
    · rw [hr] at hok; simp at hok
    · rw [hr] at hok
      have hok2 : (process_chamber nlp inputs cs rest
          ⟨(run_spacy_pipeline nlp (inputs c0) c0 st cs false).fs.files,
            (run_spacy_pipeline nlp (inputs c0) c0 st cs false).fs.ledger
              ++ c0 ++ "\n"⟩).ok = true := by
        simpa using hok
      have hnochunk0 : st.chunkFileExists (get_chunk_path c0 0) = false := by
        rw [FS.not_chunkFileExists_iff]
        intro d hd
        exact hfresh (get_chunk_path c0 0, d) hd (List.mem_cons_self c0 rest)
      have hrun : run_spacy_pipeline nlp (inputs c0) c0 st cs false =
          writeChunks nlp c0 0 (chunkList (inputs c0) cs) st := by
        unfold run_spacy_pipeline
        rw [hnochunk0]
        simp
      rcases List.mem_cons.mp hc with hcc | hcrest
      · subst hcc
        have hwok : (writeChunks nlp c 0 (chunkList (inputs c) cs) st).ok = true := by
          rw [← hrun]; exact hr
        rcases writeChunks_ok_all_written nlp c (chunkList (inputs c) cs) 0 st
          hwok j hj with ⟨d, hd, hmem⟩
        refine ⟨d, hd, ?_⟩
        have hmem2 : (get_chunk_path c j, d) ∈
            (run_spacy_pipeline nlp (inputs c) c st cs false).fs.files := by
          rw [hrun]
          simpa using hmem
        have hmono := process_chamber_files_mono nlp inputs cs rest
          ⟨(run_spacy_pipeline nlp (inputs c) c st cs false).fs.files,
            (run_spacy_pipeline nlp (inputs c) c st cs false).fs.ledger
              ++ c ++ "\n"⟩ (get_chunk_path c j, d) hmem2
        simpa using hmono
      · have hfresh2 : ∀ e ∈ (FS.mk
            (run_spacy_pipeline nlp (inputs c0) c0 st cs false).fs.files
            ((run_spacy_pipeline nlp (inputs c0) c0 st cs false).fs.ledger
              ++ c0 ++ "\n")).files, e.1.chamber ∉ rest := by
          intro e he hrest
          rcases run_spacy_pipeline_files_sub nlp (inputs c0) c0 st cs false
            e.1 e.2 (by simpa using he) with hin | ⟨hcham, _⟩
          · exact hfresh e hin (List.mem_cons_of_mem c0 hrest)
          · rw [hcham] at hrest
            exact (List.nodup_cons.mp hnd).1 hrest
        rcases ih _ hok2 (List.nodup_cons.mp hnd).2 hfresh2 c hcrest j hj with
          ⟨d, hd, hmem⟩
        exact ⟨d, hd, by simpa using hmem⟩

end RunLemmas

/-- Modelled from the spec: the AbstractExtractor base class is not among
the sources (only its subclass in
src/scrc/preprocessors/extractors/lower_court_extractor.py is), so its
state is taken from spec section 4.3: a per-spider progress ledger file, the
written results, and the log. -/
structure ExtState where
  done : List String
  results : List (String × DF)
  log : List String
deriving DecidableEq

/-- Modelled from the spec: processing of one spider by the AbstractExtractor
loop (spec section 4.3): resolve the named extraction function for the
spider; if none exists, skip with a logged notice and no error; otherwise
select the spider's rows, read the required data of each row, check the
pre-condition (rows failing it are skipped via the pre-condition check),
apply the function, write results back under the configured column, and
record the spider in its ledger. -/
def process_spider (funcs : String → Option (String → String))
    (getData : Row → Option String) (precond : String → Bool)
    (col_name : String) (rows : String → DF) (notice : String)
    (spider : String) (st : ExtState) : ExtState :=
  match funcs spider with
  | none => ⟨st.done, st.results, st.log ++ [notice]⟩
  | some f =>
    let out := (rows spider).map (fun r =>
      match getData r with
      | none => r
      | some data => if precond data then r.setCol col_name (f data) else r)
    ⟨st.done ++ [spider], st.results ++ [(spider, out)], st.log⟩

/-- Modelled from the spec: the AbstractExtractor start loop over the
spiders still to process. -/
def extractor_run (funcs : String → Option (String → String))
    (getData : Row → Option String) (precond : String → Bool)
    (col_name : String) (rows : String → DF) (notice : String) :
    List String → ExtState → ExtState
  | [], st => st
  | spider :: rest, st =>
    extractor_run funcs getData precond col_name rows notice rest
      (process_spider funcs getData precond col_name rows notice spider st)

/-- The 'no_functions' notice configured by LowerCourtExtractor. -/
def lower_court_notice : String := "Not extracting lower court informations."

/-- get_required_data of LowerCourtExtractor: series['header']. -/
def lower_court_getData (r : Row) : Option String := r.getCol "header"

/-- check_condition_before_process of LowerCourtExtractor: bool(data). -/
def lower_court_precond (data : String) : Bool := data ≠ ""

section ExtractorLemmas

variable (funcs : String → Option (String → String))
  (getData : Row → Option String) (precond : String → Bool)
  (col_name : String) (rows : String → DF) (notice : String)

theorem extractor_run_append (l1 l2 : List String) :
    ∀ st : ExtState,
      extractor_run funcs getData precond col_name rows notice (l1 ++ l2) st =
        extractor_run funcs getData precond col_name rows notice l2
          (extractor_run funcs getData precond col_name rows notice l1 st) := by
  induction l1 with
  | nil => intro st; rfl
  | cons spider rest ih =>
    intro st
    simp only [List.cons_append, extractor_run]
    exact ih _

theorem extractor_run_log_shift (l : List String) :
    ∀ (d : List String) (res : List (String × DF)) (lg1 lg2 : List String),
      (extractor_run funcs getData precond col_name rows notice l
          ⟨d, res, lg1⟩).done =
        (extractor_run funcs getData precond col_name rows notice l
          ⟨d, res, lg2⟩).done ∧
      (extractor_run funcs getData precond col_name rows notice l
          ⟨d, res, lg1⟩).results =
        (extractor_run funcs getData precond col_name rows notice l
          ⟨d, res, lg2⟩).results ∧
      ∃ tl : List String,
        (extractor_run funcs getData precond col_name rows notice l
          ⟨d, res, lg1⟩).log = lg1 ++ tl ∧
        (extractor_run funcs getData precond col_name rows notice l
          ⟨d, res, lg2⟩).log = lg2 ++ tl := by
  induction l with
  | nil =>
    intro d res lg1 lg2
    exact ⟨rfl, rfl, [], by simp [extractor_run], by simp [extractor_run]⟩
  | cons spider rest ih =>
    intro d res lg1 lg2
    simp only [extractor_run, process_spider]
    cases hf : funcs spider with
    | none =>
      rcases ih d res (lg1 ++ [notice]) (lg2 ++ [notice]) with ⟨h1, h2, tl, h3, h4⟩
      exact ⟨h1, h2, [notice] ++ tl, by simpa using h3, by simpa using h4⟩
    | some f =>
      exact ih _ _ lg1 lg2

end ExtractorLemmas

section ClaimSupport

theorem chunkList_sublist (df : DF) (c : Nat) (ch : DF)
    (h : ch ∈ chunkList df c) : ch.Sublist df := by
  rw [chunkList_eq_map] at h
  rcases List.mem_map.mp h with ⟨k, _, hk⟩
  rw [← hk]
  exact ((df.drop (k * c)).take_sublist c).trans (df.drop_sublist (k * c))

theorem ledger_append_entry (s c : String) (es : List String)
    (h : s = ledgerOf es) : s ++ c ++ "\n" = ledgerOf (es ++ [c]) := by
  subst h
  rw [ledgerOf_append]
  apply String.ext
  simp [String.data_append, ledgerOf]

/-- A sample row with only a text column. -/
def sampleRow (i : Nat) : Row := ⟨[("text", toString i)]⟩

/-- A sample dataframe of n rows. -/
def sampleDF (n : Nat) : DF := (List.range n).map sampleRow

/-- A total NLP oracle (never raises). -/
def nlpTotal : String → Option String := fun t => some (t ++ "-doc")

/-- An NLP oracle that always raises. -/
def nlpRaise : String → Option String := fun _ => none

/-- The empty output directory: no chunk files, empty (touched) ledger. -/
def emptyFS : FS := ⟨[], ""⟩

end ClaimSupport

/-- Claim C3: for every dataframe of N rows and chunk size C > 0,
run_spacy_pipeline splits it into exactly ceil(N/C) chunks, each chunk has
at most C rows, chunk k is the contiguous slice starting at row k*C (so
consecutive chunks cover disjoint contiguous row ranges in order), the
concatenation of all chunks is the original dataframe, and in particular a
dataframe of 2500 rows at chunk size 1000 yields chunks 0, 1, 2 with 1000,
1000 and 500 rows. -/
theorem C3_chunk_split (df : DF) (c : Nat) (hc : 0 < c) :
    (chunkList df c).length = (df.length + c - 1) / c ∧
    (∀ ch ∈ chunkList df c, ch.length ≤ c) ∧
    (∀ k, ∀ hk : k < (chunkList df c).length,
      (chunkList df c).get ⟨k, hk⟩ = (df.drop (k * c)).take c) ∧
    (chunkList df c).flatten = df ∧
    (∀ df2 : DF, df2.length = 2500 →
      (chunkList df2 1000).map List.length = [1000, 1000, 500]) := by
  refine ⟨chunkList_length df c, ?_, ?_, chunkList_flatten df c hc, ?_⟩
  · intro ch hch
    rw [chunkList_eq_map] at hch
    rcases List.mem_map.mp hch with ⟨k, _, hk⟩
    rw [← hk]
    exact List.length_take_le c _
  · intro k hk
    rw [List.get_eq_getElem, List.getElem_of_eq (chunkList_eq_map df c) hk,
      List.getElem_map, List.getElem_range]
  · intro df2 h2
    rw [chunkList_eq_map]
    have h3 : numChunks df2.length 1000 = 3 := by rw [h2]; rfl
    rw [h3]
    have hr3 : List.range 3 = [0, 1, 2] := rfl
    rw [hr3]
    simp [h2]

/-- Witness for C3 at a concrete dataframe of 5 rows and chunk size 2. -/
theorem C3_chunk_split_witness :
    0 < 2 ∧
    ((chunkList (sampleDF 5) 2).length = ((sampleDF 5).length + 2 - 1) / 2 ∧
    (∀ ch ∈ chunkList (sampleDF 5) 2, ch.length ≤ 2) ∧
    (∀ k, ∀ hk : k < (chunkList (sampleDF 5) 2).length,
      (chunkList (sampleDF 5) 2).get ⟨k, hk⟩ = ((sampleDF 5).drop (k * 2)).take 2) ∧
    (chunkList (sampleDF 5) 2).flatten = sampleDF 5 ∧
    (∀ df2 : DF, df2.length = 2500 →
      (chunkList df2 1000).map List.length = [1000, 1000, 500])) :=
  ⟨by decide, C3_chunk_split (sampleDF 5) 2 (by decide)⟩

/-- Claim C4: if the chunk-0 file of the chamber exists and override is
False, run_spacy_pipeline writes nothing and changes nothing for that
chamber, whatever the presence of later chunk files (only chunk 0 is ever
inspected, so the hypothesis mentions no other file). -/
theorem C4_first_chunk_gates (nlp : String → Option String) (df : DF)
    (chamber : String) (fs : FS) (cs : Nat)
    (h : fs.chunkFileExists (get_chunk_path chamber 0) = true) :
    run_spacy_pipeline nlp df chamber fs cs false = ⟨fs, true, []⟩ ∧
    (run_spacy_pipeline nlp df chamber fs cs false).fs.files = fs.files ∧
    (∀ e : Event, e ∉ (run_spacy_pipeline nlp df chamber fs cs false).trace) := by
  have heq := run_spacy_pipeline_skip nlp df chamber fs cs h
  refine ⟨heq, by rw [heq], ?_⟩
  intro e he
  rw [heq] at he
  simp at he

/-- Witness for C4: chunk 0 of chamber a exists, chunk 1 is missing, and a
2-row dataframe is skipped entirely. -/
theorem C4_first_chunk_gates_witness :
    (FS.mk [(get_chunk_path "a" 0, sampleDF 1)] "").chunkFileExists
      (get_chunk_path "a" 0) = true ∧
    (run_spacy_pipeline nlpTotal (sampleDF 2) "a"
        ⟨[(get_chunk_path "a" 0, sampleDF 1)], ""⟩ 1 false =
      ⟨⟨[(get_chunk_path "a" 0, sampleDF 1)], ""⟩, true, []⟩ ∧
    (run_spacy_pipeline nlpTotal (sampleDF 2) "a"
        ⟨[(get_chunk_path "a" 0, sampleDF 1)], ""⟩ 1 false).fs.files =
      [(get_chunk_path "a" 0, sampleDF 1)] ∧
    (∀ e : Event, e ∉ (run_spacy_pipeline nlpTotal (sampleDF 2) "a"
        ⟨[(get_chunk_path "a" 0, sampleDF 1)], ""⟩ 1 false).trace)) :=
  ⟨by decide, C4_first_chunk_gates nlpTotal (sampleDF 2) "a"
    ⟨[(get_chunk_path "a" 0, sampleDF 1)], ""⟩ 1 (by decide)⟩

/-- Claim C6: within a chamber (whose partition is actually processed, i.e.
override is set or no chunk-0 file pre-exists), chunks are written strictly
in ascending index order 0, 1, 2, ...: the write trace is exactly the
writes of chunks 0..j-1 for some j, each chunk k going to the deterministic
path chamber/k.parquet, and on success j is the total chunk count. -/
theorem C6_chunks_in_order (nlp : String → Option String) (df : DF)
    (chamber : String) (fs : FS) (cs : Nat) (ov : Bool)
    (h : ov = true ∨ fs.chunkFileExists (get_chunk_path chamber 0) = false) :
    (∀ k : Nat, get_chunk_path chamber k = ⟨chamber, k, "parquet"⟩) ∧
    ∃ j, j ≤ numChunks df.length cs ∧
      (run_spacy_pipeline nlp df chamber fs cs ov).trace =
        (List.range j).map (fun k => Event.writeChunk (get_chunk_path chamber k)) ∧
      ((run_spacy_pipeline nlp df chamber fs cs ov).ok = true →
        j = numChunks df.length cs) := by
  have hcond : (ov || !(fs.chunkFileExists (get_chunk_path chamber 0))) = true := by
    rcases h with h1 | h2
    · rw [h1]; rfl
    · rw [h2]; simp
  have hrun : run_spacy_pipeline nlp df chamber fs cs ov =
      writeChunks nlp chamber 0 (chunkList df cs) fs := by
    unfold run_spacy_pipeline
    rw [hcond]
    simp
  refine ⟨fun k => rfl, ?_⟩
  rcases writeChunks_trace_shape nlp chamber (chunkList df cs) 0 fs with
    ⟨j, hle, htr, hok⟩
  refine ⟨j, ?_, ?_, ?_⟩
  · rw [← chunkList_length df cs]; exact hle
  · rw [hrun, htr]
    apply List.map_congr_left
    intro i _
    rw [Nat.zero_add]
  · intro hh
    rw [← chunkList_length df cs]
    exact hok (by rw [← hrun]; exact hh)

/-- Witness for C6: a 3-row dataframe at chunk size 2 on an empty directory
is written as chunks 0 then 1. -/
theorem C6_chunks_in_order_witness :
    ((false : Bool) = true ∨ emptyFS.chunkFileExists (get_chunk_path "a" 0) = false) ∧
    ((∀ k : Nat, get_chunk_path "a" k = ⟨"a", k, "parquet"⟩) ∧
    ∃ j, j ≤ numChunks (sampleDF 3).length 2 ∧
      (run_spacy_pipeline nlpTotal (sampleDF 3) "a" emptyFS 2 false).trace =
        (List.range j).map (fun k => Event.writeChunk (get_chunk_path "a" k)) ∧
      ((run_spacy_pipeline nlpTotal (sampleDF 3) "a" emptyFS 2 false).ok = true →
        j = numChunks (sampleDF 3).length 2)) :=
  ⟨Or.inr (by decide), C6_chunks_in_order nlpTotal (sampleDF 3) "a" emptyFS 2 false
    (Or.inr (by decide))⟩

/-- Claim C2: a chamber already recorded as a line of chambers_processed.txt
is excluded from processing by the set difference in run_pipeline, so a
rerun neither reads its input parquet nor writes any chunk file of it,
whatever order the selected chambers are iterated in. -/
theorem C2_ledger_marked_skipped (nlp : String → Option String)
    (inputs : String → DF) (cs : Nat) (chamber_list : List String) (st : FS)
    (c : String) (order : List String)
    (hin : c ∈ splitNl st.ledger)
    (horder : ∀ x ∈ order, x ∈ chambers_not_yet_processed chamber_list st.ledger) :
    c ∉ chambers_not_yet_processed chamber_list st.ledger ∧
    Event.readInput c ∉ (process_chamber nlp inputs cs order st).trace ∧
    (∀ p d, (p, d) ∈ (process_chamber nlp inputs cs order st).fs.files →
      p.chamber = c → (p, d) ∈ st.files) := by
  have hnot : c ∉ chambers_not_yet_processed chamber_list st.ledger := by
    intro hmem
    rw [chambers_not_yet_processed, List.mem_filter] at hmem
    have h2 := hmem.2
    simp only [Bool.not_eq_true, Bool.not_eq_true'] at h2
    have h3 : (splitNl st.ledger).contains c = true :=
      List.contains_iff_exists_mem_beq.mpr ⟨c, hin, by simp⟩
    rw [h3] at h2
    simp at h2
  have hco : c ∉ order := fun hco => hnot (horder c hco)
  refine ⟨hnot, ?_, ?_⟩
  · intro he
    have hmem := process_chamber_trace_sub nlp inputs cs order st
      (Event.readInput c) he
    exact hco hmem
  · intro p d hmem hpc
    rcases process_chamber_files_sub nlp inputs cs order st p d hmem with
      hin2 | hch
    · exact hin2
    · rw [hpc] at hch
      exact absurd hch hco

/-- Witness for C2: ledger line A excludes chamber A; only B is processed
and no file or read of A occurs. -/
theorem C2_ledger_marked_skipped_witness :
    ("A" ∈ splitNl (FS.mk [] (ledgerOf ["A"])).ledger ∧
      (∀ x ∈ ["B"], x ∈ chambers_not_yet_processed ["A", "B"]
        (FS.mk [] (ledgerOf ["A"])).ledger)) ∧
    ("A" ∉ chambers_not_yet_processed ["A", "B"]
        (FS.mk [] (ledgerOf ["A"])).ledger ∧
    Event.readInput "A" ∉ (process_chamber nlpTotal (fun _ => sampleDF 2) 1
        ["B"] ⟨[], ledgerOf ["A"]⟩).trace ∧
    (∀ p d, (p, d) ∈ (process_chamber nlpTotal (fun _ => sampleDF 2) 1
        ["B"] ⟨[], ledgerOf ["A"]⟩).fs.files →
      p.chamber = "A" → (p, d) ∈ (FS.mk [] (ledgerOf ["A"])).files)) :=
  ⟨⟨by decide, by decide⟩,
    C2_ledger_marked_skipped nlpTotal (fun _ => sampleDF 2) 1 ["A", "B"]
      ⟨[], ledgerOf ["A"]⟩ "A" ["B"] (by decide) (by decide)⟩

/-- Claim C1: the ledger append of process_chamber happens only after
run_spacy_pipeline returns successfully: if the run for chamber c raises
(after the chambers of pre completed), the whole call fails, the final
ledger has no line for c, and the lines appended for the chambers of pre
remain. -/
theorem C1_error_leaves_no_entry (nlp : String → Option String)
    (inputs : String → DF) (cs : Nat) (st : FS) (pre post : List String)
    (c : String) (es : List String)
    (hled : st.ledger = ledgerOf es)
    (hnl : ∀ e ∈ es, '\n' ∉ e.data)
    (hprenl : ∀ e ∈ pre, '\n' ∉ e.data)
    (hces : c ∉ es) (hcpre : c ∉ pre) (hcne : c ≠ "")
    (hpreok : (process_chamber nlp inputs cs pre st).ok = true)
    (hfail : (run_spacy_pipeline nlp (inputs c) c
        (process_chamber nlp inputs cs pre st).fs cs false).ok = false) :
    (process_chamber nlp inputs cs (pre ++ c :: post) st).ok = false ∧
    c ∉ splitNl (process_chamber nlp inputs cs (pre ++ c :: post) st).fs.ledger ∧
    (∀ x ∈ pre, x ∈
      splitNl (process_chamber nlp inputs cs (pre ++ c :: post) st).fs.ledger) := by
  have hsplit := process_chamber_split nlp inputs cs pre (c :: post) st
  have hcons_ok : (process_chamber nlp inputs cs (c :: post)
      (process_chamber nlp inputs cs pre st).fs).ok = false := by
    simp only [process_chamber]
    rw [hfail]
    simp
  have hcons_fs : (process_chamber nlp inputs cs (c :: post)
      (process_chamber nlp inputs cs pre st).fs).fs =
      (run_spacy_pipeline nlp (inputs c) c
        (process_chamber nlp inputs cs pre st).fs cs false).fs := by
    simp only [process_chamber]
    rw [hfail]
    simp
  have hok_all : (process_chamber nlp inputs cs (pre ++ c :: post) st).ok = false := by
    rw [hsplit.2, hcons_ok, Bool.and_false]
  have hfs : (process_chamber nlp inputs cs (pre ++ c :: post) st).fs =
      (process_chamber nlp inputs cs (c :: post)
        (process_chamber nlp inputs cs pre st).fs).fs := by
    rw [hsplit.1, if_pos hpreok]
  have hledger : (process_chamber nlp inputs cs (pre ++ c :: post) st).fs.ledger =
      ledgerOf (es ++ pre) := by
    rw [hfs, hcons_fs, run_spacy_pipeline_ledger,
      process_chamber_ledger_ok nlp inputs cs pre st hpreok, hled, ← ledgerOf_append]
  have hsp : splitNl (process_chamber nlp inputs cs (pre ++ c :: post) st).fs.ledger
      = (es ++ pre) ++ [""] := by
    rw [hledger]
    apply splitNl_ledgerOf
    intro e he
    rcases List.mem_append.mp he with h1 | h2
    · exact hnl e h1
    · exact hprenl e h2
  refine ⟨hok_all, ?_, ?_⟩
  · rw [hsp]
    intro hmem
    rcases List.mem_append.mp hmem with h1 | h2
    · rcases List.mem_append.mp h1 with h3 | h4
      · exact hces h3
      · exact hcpre h4
    · exact hcne (by simpa using h2)
  · intro x hx
    rw [hsp]
    exact List.mem_append_left _ (List.mem_append_right _ hx)

/-- Witness for C1: a raising model on a one-row chamber a, from an empty
directory with empty ledger and no earlier chambers. -/
theorem C1_error_leaves_no_entry_witness :
    ((FS.mk [] "").ledger = ledgerOf [] ∧
      (∀ e ∈ ([] : List String), '\n' ∉ e.data) ∧
      (∀ e ∈ ([] : List String), '\n' ∉ e.data) ∧
      "a" ∉ ([] : List String) ∧ "a" ∉ ([] : List String) ∧ "a" ≠ "" ∧
      (process_chamber nlpRaise (fun _ => sampleDF 1) 1 [] emptyFS).ok = true ∧
      (run_spacy_pipeline nlpRaise ((fun _ => sampleDF 1) "a") "a"
        (process_chamber nlpRaise (fun _ => sampleDF 1) 1 [] emptyFS).fs
        1 false).ok = false) ∧
    ((process_chamber nlpRaise (fun _ => sampleDF 1) 1 ([] ++ "a" :: []) emptyFS).ok
        = false ∧
    "a" ∉ splitNl (process_chamber nlpRaise (fun _ => sampleDF 1) 1
        ([] ++ "a" :: []) emptyFS).fs.ledger ∧
    (∀ x ∈ ([] : List String), x ∈ splitNl (process_chamber nlpRaise
        (fun _ => sampleDF 1) 1 ([] ++ "a" :: []) emptyFS).fs.ledger)) :=
  ⟨⟨by decide, by decide, by decide, by decide, by decide, by decide, by decide,
      by decide⟩,
    C1_error_leaves_no_entry nlpRaise (fun _ => sampleDF 1) 1 emptyFS [] []
      "a" [] (by decide) (by decide) (by decide) (by decide) (by decide)
      (by decide) (by decide) (by decide)⟩

/-- Claim C5: after a run that processed a set of fresh chambers
successfully (none pre-listed in the ledger, no pre-existing chunk files of
theirs), the ledger holds each such chamber exactly once as a line, and all
its ceil(N/C) chunk files exist. -/
theorem C5_ledger_once_and_files (nlp : String → Option String)
    (inputs : String → DF) (cs : Nat) (order : List String) (st : FS)
    (es : List String)
    (hled : st.ledger = ledgerOf es)
    (hnl : ∀ e ∈ es ++ order, '\n' ∉ e.data)
    (hnd : order.Nodup)
    (hdisj : ∀ x ∈ order, x ∉ es)
    (hfresh : ∀ e ∈ st.files, e.1.chamber ∉ order)
    (hok : (process_chamber nlp inputs cs order st).ok = true) :
    ∀ c ∈ order, c ≠ "" →
      (splitNl (process_chamber nlp inputs cs order st).fs.ledger).count c = 1 ∧
      ∀ k, k < numChunks (inputs c).length cs →
        (process_chamber nlp inputs cs order st).fs.chunkFileExists
          (get_chunk_path c k) = true := by
  intro c hc hcne
  have hledger : (process_chamber nlp inputs cs order st).fs.ledger =
      ledgerOf (es ++ order) := by
    rw [process_chamber_ledger_ok nlp inputs cs order st hok, hled,
      ← ledgerOf_append]
  constructor
  · rw [hledger, count_splitNl_ledgerOf c _ hnl hcne, List.count_append]
    have h1 : es.count c = 0 := List.count_eq_zero.mpr (hdisj c hc)
    have h2 : order.count c = 1 := List.count_eq_one_of_mem hnd hc
    omega
  · intro k hk
    have hk2 : k < (chunkList (inputs c) cs).length := by
      rw [chunkList_length]; exact hk
    rcases process_chamber_ok_all_written nlp inputs cs order st hok hnd hfresh
      c hc k hk2 with ⟨d, _, hmem⟩
    exact FS.chunkFileExists_of_mem _ _ d hmem

/-- Witness for C5: one fresh chamber a of 3 rows at chunk size 2, run on an
empty directory. -/
theorem C5_ledger_once_and_files_witness :
    ((FS.mk [] "").ledger = ledgerOf [] ∧
      (∀ e ∈ ([] : List String) ++ ["a"], '\n' ∉ e.data) ∧
      (["a"] : List String).Nodup ∧
      (∀ x ∈ ["a"], x ∉ ([] : List String)) ∧
      (∀ e ∈ (FS.mk [] "").files, e.1.chamber ∉ ["a"]) ∧
      (process_chamber nlpTotal (fun _ => sampleDF 3) 2 ["a"] emptyFS).ok = true) ∧
    (∀ c ∈ ["a"], c ≠ "" →
      (splitNl (process_chamber nlpTotal (fun _ => sampleDF 3) 2 ["a"]
          emptyFS).fs.ledger).count c = 1 ∧
      ∀ k, k < numChunks ((fun _ => sampleDF 3) c).length 2 →
        (process_chamber nlpTotal (fun _ => sampleDF 3) 2 ["a"]
          emptyFS).fs.chunkFileExists (get_chunk_path c k) = true) :=
  ⟨⟨by decide, by decide, by decide, by decide, by decide, by decide⟩,
    C5_ledger_once_and_files nlpTotal (fun _ => sampleDF 3) 2 ["a"] emptyFS []
      (by decide) (by decide) (by decide) (by decide) (by decide) (by decide)⟩

theorem string_mem_of_contains (l : List String) (a : String)
    (h : l.contains a = true) : a ∈ l := List.elem_iff.mp h

theorem string_contains_of_mem (l : List String) (a : String)
    (h : a ∈ l) : l.contains a = true := List.elem_iff.mpr h

/-- Claim C7: every chunk file written by run_spacy_pipeline holds its
chunk's rows with all original columns and values unchanged, plus exactly
one column spacy_doc_bytes appended at the end holding the serialized
processed document of the row's text; no other column is added, removed or
modified. -/
theorem C7_row_schema (nlp : String → Option String) (df : DF)
    (chamber : String) (fs : FS) (cs : Nat) (ov : Bool)
    (hclean : ∀ r ∈ df, r.hasCol "spacy_doc_bytes" = false)
    (p : ChunkPath) (d : DF)
    (hmem : (p, d) ∈ (run_spacy_pipeline nlp df chamber fs cs ov).fs.files)
    (hnew : (p, d) ∉ fs.files) :
    p.chamber = chamber ∧
    ∃ hj : p.chunkNum < (chunkList df cs).length,
      d.length = ((chunkList df cs).get ⟨p.chunkNum, hj⟩).length ∧
      ∀ i, ∀ hi : i < ((chunkList df cs).get ⟨p.chunkNum, hj⟩).length,
        ∀ hi2 : i < d.length, ∃ t b,
          (((chunkList df cs).get ⟨p.chunkNum, hj⟩).get ⟨i, hi⟩).getCol "text"
            = some t ∧
          nlp t = some b ∧
          (d.get ⟨i, hi2⟩).cols =
            (((chunkList df cs).get ⟨p.chunkNum, hj⟩).get ⟨i, hi⟩).cols
              ++ [("spacy_doc_bytes", b)] := by
  rcases run_spacy_pipeline_files_sub nlp df chamber fs cs ov p d hmem with
    hin | ⟨hcham, j, hj, hp, hd⟩
  · exact absurd hin hnew
  · subst hp
    refine ⟨rfl, hj, processChunk_length nlp _ d hd, ?_⟩
    intro i hi hi2
    have hrow := processChunk_rows nlp _ d hd i hi hi2
    have hmemrow : ((chunkList df cs).get ⟨j, hj⟩).get ⟨i, hi⟩ ∈ df := by
      have hsub := chunkList_sublist df cs ((chunkList df cs).get ⟨j, hj⟩)
        (List.get_mem _ _ hj)
      exact hsub.mem (List.get_mem _ _ hi)
    rcases processRow_fresh nlp _ _ (hclean _ hmemrow) hrow with ⟨t, b, ht, hb, hcols⟩
    exact ⟨t, b, ht, hb, hcols⟩

/-- Witness for C7 at a one-row chamber written to an empty directory. -/
theorem C7_row_schema_witness :
    ((∀ r ∈ sampleDF 1, r.hasCol "spacy_doc_bytes" = false) ∧
      (get_chunk_path "a" 0, [Row.mk [("text", "0"), ("spacy_doc_bytes", "0-doc")]])
        ∈ (run_spacy_pipeline nlpTotal (sampleDF 1) "a" emptyFS 1 false).fs.files ∧
      (get_chunk_path "a" 0, [Row.mk [("text", "0"), ("spacy_doc_bytes", "0-doc")]])
        ∉ emptyFS.files) ∧
    ((get_chunk_path "a" 0).chamber = "a" ∧
    ∃ hj : (get_chunk_path "a" 0).chunkNum < (chunkList (sampleDF 1) 1).length,
      ([Row.mk [("text", "0"), ("spacy_doc_bytes", "0-doc")]] : DF).length =
        ((chunkList (sampleDF 1) 1).get ⟨(get_chunk_path "a" 0).chunkNum, hj⟩).length ∧
      ∀ i, ∀ hi : i < ((chunkList (sampleDF 1) 1).get
          ⟨(get_chunk_path "a" 0).chunkNum, hj⟩).length,
        ∀ hi2 : i < ([Row.mk [("text", "0"), ("spacy_doc_bytes", "0-doc")]] : DF).length,
        ∃ t b,
          (((chunkList (sampleDF 1) 1).get
              ⟨(get_chunk_path "a" 0).chunkNum, hj⟩).get ⟨i, hi⟩).getCol "text"
            = some t ∧
          nlpTotal t = some b ∧
          (([Row.mk [("text", "0"), ("spacy_doc_bytes", "0-doc")]] : DF).get
              ⟨i, hi2⟩).cols =
            (((chunkList (sampleDF 1) 1).get
                ⟨(get_chunk_path "a" 0).chunkNum, hj⟩).get ⟨i, hi⟩).cols
              ++ [("spacy_doc_bytes", b)]) :=
  ⟨⟨by decide, by decide, by decide⟩,
    C7_row_schema nlpTotal (sampleDF 1) "a" emptyFS 1 false (by decide)
      (get_chunk_path "a" 0) [Row.mk [("text", "0"), ("spacy_doc_bytes", "0-doc")]]
      (by decide) (by decide)⟩

/-- Claim C8: after an interruption that left chunk 0 of a chamber on disk
but no ledger line for it, the rerun selects the chamber again, writes
nothing for it (chunk 0 exists, override is False), and still appends it to
the ledger, marking it processed although later chunks may be missing. -/
theorem C8_partial_chamber_marked (nlp : String → Option String)
    (inputs : String → DF) (cs : Nat) (chamber_list : List String) (st : FS)
    (c : String) (es : List String)
    (hsel : c ∈ chamber_list)
    (hled : st.ledger = ledgerOf es)
    (hnl : ∀ e ∈ es, '\n' ∉ e.data)
    (hces : c ∉ es) (hcne : c ≠ "") (hcnl : '\n' ∉ c.data)
    (hchunk0 : st.chunkFileExists (get_chunk_path c 0) = true) :
    c ∈ chambers_not_yet_processed chamber_list st.ledger ∧
    run_spacy_pipeline nlp (inputs c) c st cs false = ⟨st, true, []⟩ ∧
    (process_chamber nlp inputs cs [c] st).fs.files = st.files ∧
    (process_chamber nlp inputs cs [c] st).ok = true ∧
    (process_chamber nlp inputs cs [c] st).fs.ledger = ledgerOf (es ++ [c]) ∧
    c ∈ splitNl (process_chamber nlp inputs cs [c] st).fs.ledger := by
  have hlines : splitNl st.ledger = es ++ [""] := by
    rw [hled]; exact splitNl_ledgerOf es hnl
  have hnotline : c ∉ splitNl st.ledger := by
    rw [hlines]
    intro hmem
    rcases List.mem_append.mp hmem with h1 | h2
    · exact hces h1
    · exact hcne (by simpa using h2)
  have hsel2 : c ∈ chambers_not_yet_processed chamber_list st.ledger := by
    rw [chambers_not_yet_processed, List.mem_filter]
    refine ⟨hsel, ?_⟩
    cases hcon : (splitNl st.ledger).contains c
    · rfl
    · exact absurd (string_mem_of_contains _ _ hcon) hnotline
  have hrun := run_spacy_pipeline_skip nlp (inputs c) c st cs hchunk0
  have hpc : process_chamber nlp inputs cs [c] st =
      ⟨⟨st.files, st.ledger ++ c ++ "\n"⟩, true,
        [Event.readInput c, Event.appendLedger c]⟩ := by
    simp only [process_chamber]
    rw [hrun]
    rfl
  have hl2 : st.ledger ++ c ++ "\n" = ledgerOf (es ++ [c]) :=
    ledger_append_entry st.ledger c es hled
  refine ⟨hsel2, hrun, by rw [hpc], by rw [hpc], by rw [hpc]; exact hl2, ?_⟩

  rw [hpc]
  show c ∈ splitNl (st.ledger ++ c ++ "\n")
  rw [hl2, splitNl_ledgerOf]
  · simp
  · intro e he
    rcases List.mem_append.mp he with h1 | h2
    · exact hnl e h1
    · rw [List.mem_singleton.mp h2]; exact hcnl

/-- Witness for C8: chamber a with chunk 0 on disk, empty ledger, 3 input
rows at chunk size 2 (so chunk 1 would be expected but is missing). -/
theorem C8_partial_chamber_marked_witness :
    ("a" ∈ ["a"] ∧
      (FS.mk [(get_chunk_path "a" 0, sampleDF 2)] "").ledger = ledgerOf [] ∧
      (∀ e ∈ ([] : List String), '\n' ∉ e.data) ∧
      "a" ∉ ([] : List String) ∧ "a" ≠ "" ∧ '\n' ∉ "a".data ∧
      (FS.mk [(get_chunk_path "a" 0, sampleDF 2)] "").chunkFileExists
        (get_chunk_path "a" 0) = true) ∧
    ("a" ∈ chambers_not_yet_processed ["a"]
        (FS.mk [(get_chunk_path "a" 0, sampleDF 2)] "").ledger ∧
    run_spacy_pipeline nlpTotal ((fun _ => sampleDF 3) "a") "a"
        ⟨[(get_chunk_path "a" 0, sampleDF 2)], ""⟩ 2 false =
      ⟨⟨[(get_chunk_path "a" 0, sampleDF 2)], ""⟩, true, []⟩ ∧
    (process_chamber nlpTotal (fun _ => sampleDF 3) 2 ["a"]
        ⟨[(get_chunk_path "a" 0, sampleDF 2)], ""⟩).fs.files =
      (FS.mk [(get_chunk_path "a" 0, sampleDF 2)] "").files ∧
    (process_chamber nlpTotal (fun _ => sampleDF 3) 2 ["a"]
        ⟨[(get_chunk_path "a" 0, sampleDF 2)], ""⟩).ok = true ∧
    (process_chamber nlpTotal (fun _ => sampleDF 3) 2 ["a"]
        ⟨[(get_chunk_path "a" 0, sampleDF 2)], ""⟩).fs.ledger =
      ledgerOf ([] ++ ["a"]) ∧
    "a" ∈ splitNl (process_chamber nlpTotal (fun _ => sampleDF 3) 2 ["a"]
        ⟨[(get_chunk_path "a" 0, sampleDF 2)], ""⟩).fs.ledger) :=
  ⟨⟨by decide, by decide, by decide, by decide, by decide, by decide, by decide⟩,
    C8_partial_chamber_marked nlpTotal (fun _ => sampleDF 3) 2 ["a"]
      ⟨[(get_chunk_path "a" 0, sampleDF 2)], ""⟩ "a" [] (by decide) (by decide)
      (by decide) (by decide) (by decide) (by decide) (by decide)⟩

/-- Claim C10: a chamber whose input parquet has zero rows gets no chunk
file at all (the chunk list is empty), yet process_chamber still appends it
to the ledger, so a rerun treats it as processed although no chunk file of
it is on disk. -/
theorem C10_empty_chamber_marked (nlp : String → Option String)
    (inputs : String → DF) (cs : Nat) (chamber_list : List String) (st : FS)
    (c : String) (es : List String)
    (hdf : inputs c = [])
    (hled : st.ledger = ledgerOf es)
    (hnl : ∀ e ∈ es, '\n' ∉ e.data)
    (hcnl : '\n' ∉ c.data) :
    run_spacy_pipeline nlp (inputs c) c st cs false = ⟨st, true, []⟩ ∧
    (process_chamber nlp inputs cs [c] st).fs.files = st.files ∧
    (process_chamber nlp inputs cs [c] st).ok = true ∧
    (process_chamber nlp inputs cs [c] st).fs.ledger = ledgerOf (es ++ [c]) ∧
    c ∉ chambers_not_yet_processed chamber_list
      (process_chamber nlp inputs cs [c] st).fs.ledger := by
  have hrun : run_spacy_pipeline nlp (inputs c) c st cs false = ⟨st, true, []⟩ := by
    rw [hdf]
    exact run_spacy_pipeline_empty nlp c st cs
  have hpc : process_chamber nlp inputs cs [c] st =
      ⟨⟨st.files, st.ledger ++ c ++ "\n"⟩, true,
        [Event.readInput c, Event.appendLedger c]⟩ := by
    simp only [process_chamber]
    rw [hrun]
    rfl
  have hl2 : st.ledger ++ c ++ "\n" = ledgerOf (es ++ [c]) :=
    ledger_append_entry st.ledger c es hled
  have hlines : splitNl (process_chamber nlp inputs cs [c] st).fs.ledger =
      (es ++ [c]) ++ [""] := by
    rw [hpc]
    show splitNl (st.ledger ++ c ++ "\n") = (es ++ [c]) ++ [""]
    rw [hl2]
    apply splitNl_ledgerOf
    intro e he
    rcases List.mem_append.mp he with h1 | h2
    · exact hnl e h1
    · rw [List.mem_singleton.mp h2]; exact hcnl
  refine ⟨hrun, by rw [hpc], by rw [hpc], by rw [hpc]; exact hl2, ?_⟩
  rw [chambers_not_yet_processed, List.mem_filter]
  intro hmem
  have h2 := hmem.2
  have h3 : (splitNl (process_chamber nlp inputs cs [c] st).fs.ledger).contains c
      = true := by
    apply string_contains_of_mem
    rw [hlines]
    simp
  rw [h3] at h2
  simp at h2

/-- Witness for C10: an empty chamber a appended to an empty ledger, then
excluded from a rerun's selection. -/
theorem C10_empty_chamber_marked_witness :
    (((fun _ => ([] : DF)) "a") = ([] : DF) ∧
      (FS.mk [] "").ledger = ledgerOf [] ∧
      (∀ e ∈ ([] : List String), '\n' ∉ e.data) ∧
      '\n' ∉ "a".data) ∧
    (run_spacy_pipeline nlpTotal ((fun _ => ([] : DF)) "a") "a" emptyFS 1000 false =
      ⟨emptyFS, true, []⟩ ∧
    (process_chamber nlpTotal (fun _ => ([] : DF)) 1000 ["a"] emptyFS).fs.files =
      emptyFS.files ∧
    (process_chamber nlpTotal (fun _ => ([] : DF)) 1000 ["a"] emptyFS).ok = true ∧
    (process_chamber nlpTotal (fun _ => ([] : DF)) 1000 ["a"] emptyFS).fs.ledger =
      ledgerOf ([] ++ ["a"]) ∧
    "a" ∉ chambers_not_yet_processed ["a", "b"]
      (process_chamber nlpTotal (fun _ => ([] : DF)) 1000 ["a"] emptyFS).fs.ledger) :=
  ⟨⟨by decide, by decide, by decide, by decide⟩,
    C10_empty_chamber_marked nlpTotal (fun _ => ([] : DF)) 1000 ["a", "b"]
      emptyFS "a" [] (by decide) (by decide) (by decide) (by decide)⟩

/-- Claim C9: when no extraction function is defined for a spider, the
extractor pattern behind LowerCourtExtractor skips that spider's rows with
a logged notice instead of raising: the run completes, and the results and
per-spider ledger are exactly those of the run without that spider. -/
theorem C9_no_function_skips (funcs : String → Option (String → String))
    (getData : Row → Option String) (precond : String → Bool)
    (col_name : String) (rows : String → DF) (notice : String)
    (x : String) (pre post : List String) (st : ExtState)
    (hfx : funcs x = none) :
    (extractor_run funcs getData precond col_name rows notice
        (pre ++ x :: post) st).done =
      (extractor_run funcs getData precond col_name rows notice
        (pre ++ post) st).done ∧
    (extractor_run funcs getData precond col_name rows notice
        (pre ++ x :: post) st).results =
      (extractor_run funcs getData precond col_name rows notice
        (pre ++ post) st).results ∧
    notice ∈ (extractor_run funcs getData precond col_name rows notice
        (pre ++ x :: post) st).log := by
  rw [extractor_run_append funcs getData precond col_name rows notice pre
      (x :: post) st,
    extractor_run_append funcs getData precond col_name rows notice pre post st]
  generalize extractor_run funcs getData precond col_name rows notice pre st = P
  obtain ⟨pd, pr, pl⟩ := P
  simp only [extractor_run, process_spider, hfx]
  rcases extractor_run_log_shift funcs getData precond col_name rows notice post
    pd pr (pl ++ [notice]) pl with ⟨hd, hres, tl, hl1, hl2⟩
  refine ⟨hd, hres, ?_⟩
  rw [hl1]
  simp

/-- Witness for C9: no extraction function exists for spider X; spiders
before and after are unaffected. -/
theorem C9_no_function_skips_witness :
    ((fun s => if s = "X" then none else some (fun d => d ++ "!")) "X" = none ∧
      True) ∧
    ((extractor_run (fun s => if s = "X" then none else some (fun d => d ++ "!"))
        lower_court_getData lower_court_precond "lower_court"
        (fun _ => sampleDF 1) lower_court_notice (["Y"] ++ "X" :: ["Z"])
        ⟨[], [], []⟩).done =
      (extractor_run (fun s => if s = "X" then none else some (fun d => d ++ "!"))
        lower_court_getData lower_court_precond "lower_court"
        (fun _ => sampleDF 1) lower_court_notice (["Y"] ++ ["Z"])
        ⟨[], [], []⟩).done ∧
    (extractor_run (fun s => if s = "X" then none else some (fun d => d ++ "!"))
        lower_court_getData lower_court_precond "lower_court"
        (fun _ => sampleDF 1) lower_court_notice (["Y"] ++ "X" :: ["Z"])
        ⟨[], [], []⟩).results =
      (extractor_run (fun s => if s = "X" then none else some (fun d => d ++ "!"))
        lower_court_getData lower_court_precond "lower_court"
        (fun _ => sampleDF 1) lower_court_notice (["Y"] ++ ["Z"])
        ⟨[], [], []⟩).results ∧
    lower_court_notice ∈ (extractor_run
        (fun s => if s = "X" then none else some (fun d => d ++ "!"))
        lower_court_getData lower_court_precond "lower_court"
        (fun _ => sampleDF 1) lower_court_notice (["Y"] ++ "X" :: ["Z"])
        ⟨[], [], []⟩).log) :=
  ⟨⟨rfl, trivial⟩,
    C9_no_function_skips (fun s => if s = "X" then none else some (fun d => d ++ "!"))
      lower_court_getData lower_court_precond "lower_court" (fun _ => sampleDF 1)
      lower_court_notice "X" ["Y"] ["Z"] ⟨[], [], []⟩ rfl⟩

end SCRC
